import Mathlib

/-! Verification of the streaming tool-loop engine of `llm.py`.

The file embeds, directly from the source: the directive scanner
(`extract_run_command`, the regex search for a complete run tag),
the markup stripper (the `re.sub` call), Python's `str.strip` and
`str.lower` on the ASCII fragment, the confirmation-and-execution
gate (`execute_command`), the incremental renderer loop, the turn
controller (`make_api_call`, split into the top-level and the
continuation invocation since the recursion depth is at most one),
and one iteration of the top-level read-eval loop in `main`.
Theorems about these definitions settle the listed claims. -/

namespace LlmCli

/-- ASCII whitespace as recognized by Python's regex class and by
`str.strip`: space, tab, newline, carriage return, vertical tab,
form feed. -/
def isPySpace (c : Char) : Bool :=
  c = ' ' || c = '\t' || c = '\n' || c = '\r' || c = '\x0b' || c = '\x0c'

/-- List-level `str.strip`: drop whitespace from both ends. -/
def stripChars (l : List Char) : List Char :=
  ((l.dropWhile isPySpace).reverse.dropWhile isPySpace).reverse

/-- Python `str.strip` on a string. -/
def pyStrip (s : String) : String := ⟨stripChars s.data⟩

/-- Python `str.lower` (ASCII fragment, which is all the source compares). -/
def pyLower (s : String) : String := ⟨s.data.map Char.toLower⟩

/-- Split a character list at the first closing bracket: returns the
characters before the first `]` and the characters after it, or
`none` when no `]` occurs.  This is how the regex piece
`[^\x5d]+\x5d` delimits the command text: everything up to the first
closing bracket. -/
def splitAtClose : List Char → Option (List Char × List Char)
  | [] => none
  | c :: cs =>
    if c = ']' then some ([], cs)
    else
      match splitAtClose cs with
      | some (t, r) => some (c :: t, r)
      | none => none

/-- Match of the part of the regex `\[RUN:?\s*([^\x5d]+)\x5d` that
follows the literal keyword, anchored at the head of `rest` (the
characters after `[RUN`).  On success, returns the value of
`group(1).strip()` together with the total length of the matched span
(keyword included).

The group value follows Python's greedy-with-backtracking semantics,
with `t` the text strictly between `[RUN` and the first `]`:
the optional colon is consumed when present (given back only when
nothing would remain for the mandatory group, i.e. when `t = ":"`),
`\s*` then consumes the maximal whitespace run, giving one character
back when it would swallow all of the remaining text (the group needs
at least one character). -/
def tagAfterKey (rest : List Char) : Option (String × Nat) :=
  match splitAtClose rest with
  | some (t, _) =>
    if 1 ≤ t.length then
      let t1 := if 2 ≤ t.length ∧ t.head? = some ':' then t.drop 1 else t
      let w := t1.takeWhile isPySpace
      let g := if w.length = t1.length then t1.drop (t1.length - 1) else t1.drop w.length
      some (pyStrip ⟨g⟩, t.length + 5)
    else none
  | none => none

/-- The regex match anchored at the head of the whole list: the four
literal keyword characters followed by the body handled by
`tagAfterKey`. -/
def tagMatchAt (l : List Char) : Option (String × Nat) :=
  match l with
  | a :: b :: c :: d :: rest =>
    if a = '[' ∧ b = 'R' ∧ c = 'U' ∧ d = 'N' then tagAfterKey rest else none
  | _ => none

/-- Leftmost regex match over the whole buffer: `re.search` tries each
start position from the left and keeps the first that matches. -/
def findTag : List Char → Option String
  | [] => none
  | c :: cs =>
    match tagMatchAt (c :: cs) with
    | some (g, _) => some g
    | none => findTag cs

/-- `extract_run_command` from the source: search for the run tag and
return `match.group(1).strip()`, or `None` when there is no match. -/
def extract_run_command (s : String) : Option String := findTag s.data

/-- `re.sub(r'\[RUN:?\s*[^\x5d]+\x5d', '', content)` at the character-list
level: scan from the left, remove every non-overlapping leftmost match,
keep all other characters. -/
def stripRunTags (l : List Char) : List Char :=
  match l with
  | [] => []
  | c :: cs =>
    match tagMatchAt (c :: cs) with
    | some (_, n) => stripRunTags (cs.drop (n - 1))
    | none => c :: stripRunTags cs
  termination_by l.length
  decreasing_by
    all_goals simp_wf
    all_goals omega

/-- The `re.sub` call on strings. -/
def sub_run_tags (s : String) : String := ⟨stripRunTags s.data⟩

/-- `re.sub(r'\[RUN:?\s*[^\x5d]+\x5d', '', content).strip()`, the exact
cleanup the source applies before committing cancelled or continuation
content to history. -/
def clean_run_content (s : String) : String := pyStrip (sub_run_tags s)

/-! The data model: conversation messages and turn outcomes. -/

/-- Message roles used by the client. -/
inductive Role where
  | system
  | user
  | assistant
deriving DecidableEq

/-- One entry of the conversation history. -/
structure Message where
  role : Role
  content : String
deriving DecidableEq

/-! The confirmation-and-execution gate (`execute_command`). -/

/-- Outcome of the external process collaborator for one command:
`subprocess.run` either finishes with captured stdout, stderr and a
return code, raises `TimeoutExpired` after the fixed timeout, or
raises some other exception (for instance when the command cannot be
launched). -/
inductive ProcResult where
  | finished (stdout stderr : String) (returncode : Int)
  | timedOut
  | raised (msg : String)
deriving DecidableEq

/-- The fixed timeout the source passes to `subprocess.run`. -/
def command_timeout : Nat := 30

/-- Classification of an authorized run, exactly the `try` block of
`execute_command`: exit code zero yields the merged output with status
`0`; a non-zero exit code yields the output prefixed by the failure
marker with status `1`; a timeout or any other exception is folded
into a synthetic message with status `1`. -/
def runAuthorized (r : ProcResult) : Option String × Nat :=
  match r with
  | .finished out err code =>
    let output := out ++ err
    if code ≠ 0 then
      (some ("[Command failed with exit code " ++ toString code ++ "]\n" ++ output), 1)
    else
      (some output, 0)
  | .timedOut => (some "[Command timed out after 30 seconds]", 1)
  | .raised msg => (some ("[Command failed: " ++ msg ++ "]"), 1)

/-- `execute_command cmd`, driven by a script of interactive inputs.
Each prompt round supplies the raw confirmation reply and the
replacement line that would be read if the reply selects editing.
The reply is normalized by `strip().lower()`; `y`, `yes` or the empty
reply runs the command through the process collaborator; `e` or
`edit` re-enters the gate on a non-empty replacement and cancels on an
empty one; any other reply cancels.  The status is `0` for success,
`1` for failure, `2` for user cancellation, mirroring the returned
pair `(output, code)` of the source. -/
def execute_command (proc : String → ProcResult) :
    List (String × String) → String → Option String × Nat
  | [], _ => (none, 2)
  | (raw, ed) :: rest, cmd =>
    let reply := pyLower (pyStrip raw)
    if reply = "y" ∨ reply = "yes" ∨ reply = "" then
      runAuthorized (proc cmd)
    else if reply = "e" ∨ reply = "edit" then
      if ed ≠ "" then execute_command proc rest ed else (none, 2)
    else (none, 2)

/-- The confirmation prompts observed while running the gate: each
element is the command text presented at a prompt together with the
normalized reply the user gave there. -/
def gateTrace : List (String × String) → String → List (String × String)
  | [], _ => []
  | (raw, ed) :: rest, cmd =>
    let reply := pyLower (pyStrip raw)
    if reply = "y" ∨ reply = "yes" ∨ reply = "" then [(cmd, reply)]
    else if reply = "e" ∨ reply = "edit" then
      (cmd, reply) :: (if ed ≠ "" then gateTrace rest ed else [])
    else [(cmd, reply)]

/-- The command texts the gate actually hands to the process
collaborator (at most one, as proved below). -/
def executedCmds : List (String × String) → String → List String
  | [], _ => []
  | (raw, ed) :: rest, cmd =>
    let reply := pyLower (pyStrip raw)
    if reply = "y" ∨ reply = "yes" ∨ reply = "" then [cmd]
    else if reply = "e" ∨ reply = "edit" then
      if ed ≠ "" then executedCmds rest ed else []
    else []

/-! The incremental renderer (the `Live` block of `make_api_call`).
Display updates are throttled by wall-clock time and a size threshold;
the decision whether the throttle gate is open when a chunk arrives is
abstracted as a boolean supplied with the chunk. -/

/-- Whether the buffer contains a complete run tag (`re.search` on the
accumulated buffer, used by the renderer to decide when to halt). -/
def hasTag (s : String) : Bool := (extract_run_command s).isSome

/-- A run of the renderer: the final accumulated buffer, the successive
full-content snapshots handed to the live display, and whether a
complete directive was detected. -/
structure RenderTrace where
  buffer : String
  displayed : List String
  detected : Bool
deriving DecidableEq

/-- The streaming loop over the remaining chunks: append the chunk to
the buffer; if the buffer now holds a complete tag, stop consuming the
stream at once (nothing further is displayed); otherwise refresh the
display with the whole accumulated content when the throttle gate is
open. -/
def render_loop : List (String × Bool) → String → List String → RenderTrace
  | [], buf, shown => ⟨buf, shown, false⟩
  | (c, r) :: rest, buf, shown =>
    let buf' := buf ++ c
    if hasTag buf' then ⟨buf', shown, true⟩
    else render_loop rest buf' (if r then shown ++ [buf'] else shown)

/-- The whole rendering pass of one turn: the first chunk is special
(a tag in it suppresses the live display entirely; otherwise it is
shown when non-blank), then the loop consumes the remaining chunks,
and at stream end a final reveal flushes the full content unless a
directive was found. -/
def render_stream (first : String) (rest : List (String × Bool)) : RenderTrace :=
  if hasTag first then ⟨first, [], true⟩
  else
    let shown0 := if pyStrip first ≠ "" then [first] else []
    let t := render_loop rest first shown0
    if t.detected then t
    else if hasTag t.buffer then ⟨t.buffer, t.displayed, true⟩
    else if pyStrip t.buffer ≠ "" then ⟨t.buffer, t.displayed ++ [t.buffer], false⟩
    else t

/-! The turn controller (`make_api_call`) and the top-level loop. -/

/-- Outcome of one streaming request, as far as history bookkeeping is
concerned: a transport fault (connection error, non-200 status, or a
stream exception), a cancellation observed at a suspension point, an
empty stream (the very first read raises `StopIteration`), or the
fully accumulated content text. -/
inductive StreamOutcome where
  | fault
  | cancelled
  | empty
  | ok (full : String)
deriving DecidableEq

/-- Result of one `make_api_call` invocation: the updated history, the
returned boolean, and the state of the global cancellation flag at
return (the caller in `main` consults it to decide retraction). -/
structure CallResult where
  messages : List Message
  ok : Bool
  cancelSet : Bool
deriving DecidableEq

/-- The external world of one user-initiated turn: the outcome of the
top-level streaming request, the scripted confirmation inputs, the
process collaborator, and the outcome of the streaming request of the
continuation turn (consulted only when a command was executed). -/
structure TurnEnv where
  s1 : StreamOutcome
  decisions : List (String × String)
  proc : String → ProcResult
  s2 : StreamOutcome

/-- `make_api_call(recursive=True)`, the continuation turn.  It never
invokes the gate: a transport fault returns `False` with no history
change; a cancellation likewise but with the flag set; an empty stream
is benign (`True`, nothing appended); otherwise the content is
committed as an `assistant` message, with the directive markup
stripped first when a (truthy) directive is present. -/
def make_api_call_cont (msgs : List Message) (s : StreamOutcome) : CallResult :=
  match s with
  | .fault => ⟨msgs, false, false⟩
  | .cancelled => ⟨msgs, false, true⟩
  | .empty => ⟨msgs, true, false⟩
  | .ok full =>
    let content :=
      match extract_run_command full with
      | some cmd => if cmd = "" then full else clean_run_content full
      | none => full
    ⟨msgs ++ [⟨Role.assistant, content⟩], true, false⟩

/-- `make_api_call(recursive=False)`, one top-level turn over a given
history.  A transport fault or an empty stream returns `False` with no
history change and the cancellation flag clear; a cancellation returns
`False` with the flag set.  With content in hand, a truthy directive
(non-empty extracted command) triggers the gate: on cancellation
(status `2`) the content is committed with the markup stripped when
anything remains; otherwise the unmodified content is appended as the
`assistant` message, the synthetic `user` follow-up is appended
(`"Command failed."` on non-zero status, the framed output on
success), and the continuation turn runs on the extended history.
Without a truthy directive the content is appended unchanged. -/
def make_api_call_top (env : TurnEnv) (msgs : List Message) : CallResult :=
  match env.s1 with
  | .fault => ⟨msgs, false, false⟩
  | .cancelled => ⟨msgs, false, true⟩
  | .empty => ⟨msgs, false, false⟩
  | .ok full =>
    match extract_run_command full with
    | none => ⟨msgs ++ [⟨Role.assistant, full⟩], true, false⟩
    | some cmd =>
      if cmd = "" then ⟨msgs ++ [⟨Role.assistant, full⟩], true, false⟩
      else
        let res := execute_command env.proc env.decisions cmd
        if res.2 = 2 then
          let clean := clean_run_content full
          if clean = "" then ⟨msgs, true, false⟩
          else ⟨msgs ++ [⟨Role.assistant, clean⟩], true, false⟩
        else
          let follow :=
            if res.2 ≠ 0 then "Command failed."
            else "Command output:\n" ++ res.1.getD ""
          make_api_call_cont
            (msgs ++ [⟨Role.assistant, full⟩, ⟨Role.user, follow⟩]) env.s2

/-- Whether the history ends with a `user` entry (the source checks
`messages and messages[-1]["role"] == "user"`). -/
def endsWithUser (l : List Message) : Bool :=
  match l.getLast? with
  | some ⟨Role.user, _⟩ => true
  | _ => false

/-- One iteration of the `main` loop on a user message: append the
`user` entry, run the turn, and pop the trailing entry exactly when
the call returned `False`, the cancellation flag is set, and the
history ends with a `user` entry. -/
def main_iteration (env : TurnEnv) (u : String) (msgs : List Message) : List Message :=
  let r := make_api_call_top env (msgs ++ [⟨Role.user, u⟩])
  if r.ok = false ∧ r.cancelSet = true ∧ endsWithUser r.messages = true
  then r.messages.dropLast
  else r.messages

/-- A whole session: the top-level loop folded over a sequence of user
inputs, each with its external world. -/
def run_session (turns : List (String × TurnEnv)) (msgs : List Message) : List Message :=
  turns.foldl (fun m t => main_iteration t.2 t.1 m) msgs

/-- The command texts executed during one user-initiated turn: the
gate is reached only from the top-level call, and only when the
completed content carries a truthy directive. -/
def turnExecutedCmds (env : TurnEnv) : List String :=
  match env.s1 with
  | .ok full =>
    match extract_run_command full with
    | some cmd => if cmd = "" then [] else executedCmds env.decisions cmd
    | none => []
  | _ => []

/-! Spec-side characterization of the directive wire syntax, used only
to compare the scanner against the specification's wording. -/

/-- The spec's pattern after the keyword: optional colon, optional
whitespace, one or more non-close-bracket characters, a close bracket,
then arbitrary remaining text; the argument is the mandatory group
with surrounding whitespace trimmed.  This definition follows the
spec's words, not the source, and is compared with `tagAfterKey`. -/
def SpecRunRest (rest : List Char) (arg : String) : Prop :=
  ∃ co w a r : List Char,
    (co = [] ∨ co = [':']) ∧
    (∀ c ∈ w, isPySpace c = true) ∧
    a ≠ [] ∧
    (∀ c ∈ a, c ≠ ']') ∧
    rest = co ++ w ++ a ++ ']' :: r ∧
    arg = pyStrip ⟨a⟩

/-- The spec's complete directive pattern anchored at the head of a
buffer: open bracket, the case-sensitive keyword `RUN`, then the body
described by `SpecRunRest`. -/
def SpecRunTag (l : List Char) (arg : String) : Prop :=
  ∃ rest, l = '[' :: 'R' :: 'U' :: 'N' :: rest ∧ SpecRunRest rest arg

/-- Stream outcomes that do not abort the turn without progress:
everything except a transport fault and an empty stream. -/
def safeStream : StreamOutcome → Bool
  | .fault => false
  | .empty => false
  | _ => true

/-- The side conditions under which one turn preserves the history
invariant: the top-level stream neither faults nor comes back empty,
a declined directive leaves non-blank prose once the markup is
stripped, and the continuation stream after an executed command
neither faults nor comes back empty. -/
def SafeTurn (env : TurnEnv) : Prop :=
  safeStream env.s1 = true ∧
  ∀ full cmd, env.s1 = .ok full → extract_run_command full = some cmd → cmd ≠ "" →
    ((execute_command env.proc env.decisions cmd).2 = 2 → clean_run_content full ≠ "") ∧
    ((execute_command env.proc env.decisions cmd).2 ≠ 2 → safeStream env.s2 = true)

/-! Concrete worlds used to instantiate the theorems. -/

/-- A process collaborator that succeeds echoing a fixed output. -/
def procOk (out : String) : String → ProcResult := fun _ => ProcResult.finished out "" 0

/-- A turn whose transport request fails. -/
def envFaultTurn : TurnEnv := ⟨StreamOutcome.fault, [], procOk "", StreamOutcome.fault⟩

/-- A turn cancelled while waiting for the response. -/
def envCancelTurn : TurnEnv := ⟨StreamOutcome.cancelled, [], procOk "", StreamOutcome.fault⟩

/-- A turn that completes with plain prose and no directive. -/
def envPlainTurn : TurnEnv := ⟨StreamOutcome.ok "hello", [], procOk "", StreamOutcome.ok ""⟩

/-- A turn whose response requests a command, confirmed with the empty
default reply, executed successfully with output `ok`, and whose
continuation completes with plain prose. -/
def envEchoTurn : TurnEnv :=
  ⟨StreamOutcome.ok "Check. [RUN:echo hi]", [("", "")], procOk "ok", StreamOutcome.ok "Done."⟩

/-- A turn whose response requests a command and whose user declines. -/
def envDeclineTurn : TurnEnv :=
  ⟨StreamOutcome.ok "I will list. [RUN:ls]", [("n", "")], procOk "", StreamOutcome.fault⟩

/-! Lemmas about the scanner. -/

theorem splitAtClose_eq_some {l t r : List Char} (h : splitAtClose l = some (t, r)) :
    l = t ++ ']' :: r ∧ ∀ c ∈ t, c ≠ ']' := by
  induction l generalizing t r with
  | nil => simp [splitAtClose] at h
  | cons c cs ih =>
    by_cases hc : c = ']'
    · subst hc
      simp [splitAtClose] at h
      obtain ⟨ht, hr⟩ := h
      subst ht; subst hr
      simp
    · simp only [splitAtClose, if_neg hc] at h
      cases hsp : splitAtClose cs with
      | none => rw [hsp] at h; simp at h
      | some p =>
        obtain ⟨t', r'⟩ := p
        rw [hsp] at h
        simp at h
        obtain ⟨ht, hr⟩ := h
        subst ht; subst hr
        obtain ⟨he, hm⟩ := ih hsp
        constructor
        · rw [he]; simp
        · intro x hx
          rcases List.mem_cons.mp hx with hx | hx
          · subst hx; exact hc
          · exact hm x hx

theorem splitAtClose_append {t r : List Char} (ht : ∀ c ∈ t, c ≠ ']') :
    splitAtClose (t ++ ']' :: r) = some (t, r) := by
  induction t with
  | nil => simp [splitAtClose]
  | cons c cs ih =>
    have hc : c ≠ ']' := ht c (List.mem_cons_self c cs)
    have ih' := ih (fun x hx => ht x (List.mem_cons_of_mem c hx))
    simp only [List.cons_append, splitAtClose, if_neg hc]
    rw [List.append_eq, ih']

theorem space_ne_close {c : Char} (h : isPySpace c = true) : c ≠ ']' := by
  intro hc
  subst hc
  simp [isPySpace] at h

theorem dropWhile_self_idem (p : Char → Bool) (l : List Char) :
    (l.dropWhile p).dropWhile p = l.dropWhile p := by
  induction l with
  | nil => rfl
  | cons c cs ih =>
    by_cases h : p c
    · simp [List.dropWhile_cons, h, ih]
    · simp [List.dropWhile_cons, h]

theorem stripChars_dropWhile (l : List Char) :
    stripChars (l.dropWhile isPySpace) = stripChars l := by
  unfold stripChars
  rw [dropWhile_self_idem]

theorem all_space_of_takeWhile_length {l : List Char}
    (h : (l.takeWhile isPySpace).length = l.length) : ∀ c ∈ l, isPySpace c = true := by
  induction l with
  | nil => intro c hc; cases hc
  | cons c cs ih =>
    by_cases hp : isPySpace c
    · rw [List.takeWhile_cons, if_pos hp] at h
      simp only [List.length_cons, Nat.add_right_cancel_iff] at h
      intro x hx
      rcases List.mem_cons.mp hx with hx | hx
      · subst hx; exact hp
      · exact ih h x hx
    · rw [List.takeWhile_cons, if_neg hp] at h
      simp at h

theorem stripChars_of_all_space {l : List Char}
    (h : ∀ c ∈ l, isPySpace c = true) : stripChars l = [] := by
  have h1 : l.dropWhile isPySpace = [] := by
    induction l with
    | nil => rfl
    | cons c cs ih =>
      rw [List.dropWhile_cons, if_pos (h c (List.mem_cons_self c cs))]
      exact ih (fun x hx => h x (List.mem_cons_of_mem c hx))
  unfold stripChars
  rw [h1]
  rfl

theorem drop_takeWhile_length (p : Char → Bool) (l : List Char) :
    l.drop (l.takeWhile p).length = l.dropWhile p := by
  induction l with
  | nil => rfl
  | cons c cs ih =>
    by_cases h : p c
    · rw [List.takeWhile_cons, if_pos h, List.dropWhile_cons, if_pos h,
        List.length_cons, List.drop_succ_cons, ih]
    · rw [List.takeWhile_cons, if_neg h, List.dropWhile_cons, if_neg h,
        List.length_nil, List.drop_zero]

/-- The stripped regex group equals the stripped text after the colon:
the greedy split between the whitespace run and the mandatory group
does not matter once both ends are trimmed. -/
theorem group_strip_eq (t1 : List Char) :
    stripChars (if (t1.takeWhile isPySpace).length = t1.length
                then t1.drop (t1.length - 1) else t1.drop (t1.takeWhile isPySpace).length)
      = stripChars t1 := by
  by_cases h : (t1.takeWhile isPySpace).length = t1.length
  · rw [if_pos h]
    have hall := all_space_of_takeWhile_length h
    have hdrop : ∀ c ∈ t1.drop (t1.length - 1), isPySpace c = true :=
      fun c hc => hall c (List.drop_subset _ _ hc)
    rw [stripChars_of_all_space hall, stripChars_of_all_space hdrop]
  · rw [if_neg h, drop_takeWhile_length, stripChars_dropWhile]

/-- Trimming erases the difference between the greedy regex group and
the whole text after the optional colon. -/
theorem pyStrip_group (t1 : List Char) :
    pyStrip ⟨if (t1.takeWhile isPySpace).length = t1.length
             then t1.drop (t1.length - 1) else t1.drop (t1.takeWhile isPySpace).length⟩
      = pyStrip ⟨t1⟩ := by
  unfold pyStrip
  exact congrArg (fun l => (⟨l⟩ : String)) (group_strip_eq t1)

/-- The source's anchored matcher only succeeds on text the spec's
pattern describes, and the returned argument is a trimmed group of a
valid decomposition. -/
theorem tagAfterKey_sound {rest : List Char} {g : String} {n : Nat}
    (h : tagAfterKey rest = some (g, n)) : SpecRunRest rest g := by
  unfold tagAfterKey at h
  cases hsp : splitAtClose rest with
  | none => rw [hsp] at h; simp at h
  | some p =>
    obtain ⟨t, r⟩ := p
    rw [hsp] at h
    simp only at h
    by_cases hlen : 1 ≤ t.length
    · rw [if_pos hlen] at h
      simp only [Option.some.injEq, Prod.mk.injEq] at h
      obtain ⟨hg, _⟩ := h
      obtain ⟨hrest, hne⟩ := splitAtClose_eq_some hsp
      by_cases hcol : 2 ≤ t.length ∧ t.head? = some ':'
      · rw [if_pos hcol, pyStrip_group] at hg
        obtain ⟨hlen2, hhead⟩ := hcol
        cases t with
        | nil => simp at hhead
        | cons c0 cs =>
          simp only [List.head?_cons, Option.some.injEq] at hhead
          subst hhead
          refine ⟨[':'], [], cs, r, Or.inr rfl, by simp, ?_, ?_, ?_, ?_⟩
          · intro hnil
            rw [hnil] at hlen2
            simp at hlen2
          · exact fun x hx => hne x (List.mem_cons_of_mem _ hx)
          · rw [hrest]; simp
          · exact hg.symm
      · rw [if_neg hcol, pyStrip_group] at hg
        refine ⟨[], [], t, r, Or.inl rfl, by simp, ?_, hne, by rw [hrest]; simp, hg.symm⟩
        intro hnil
        rw [hnil] at hlen
        simp at hlen
    · rw [if_neg hlen] at h
      simp at h

/-- Conversely, text of the spec's shape is matched by the source's
anchored matcher. -/
theorem tagAfterKey_complete {rest : List Char} {arg : String}
    (h : SpecRunRest rest arg) : ∃ g n, tagAfterKey rest = some (g, n) := by
  obtain ⟨co, w, a, r, hco, hw, ha, haz, hrest, _⟩ := h
  have hall : ∀ c ∈ co ++ w ++ a, c ≠ ']' := by
    intro c hc
    rcases List.mem_append.mp hc with hc | hc
    · rcases List.mem_append.mp hc with hc | hc
      · rcases hco with hco | hco
        · rw [hco] at hc; cases hc
        · rw [hco] at hc
          rcases List.mem_singleton.mp hc with rfl
          decide
      · exact space_ne_close (hw c hc)
    · exact haz c hc
  have hsplit : splitAtClose rest = some (co ++ w ++ a, r) := by
    rw [hrest, show co ++ w ++ a ++ ']' :: r = (co ++ w ++ a) ++ ']' :: r by simp]
    exact splitAtClose_append hall
  have hlen : 1 ≤ (co ++ w ++ a).length := by
    have : 1 ≤ a.length := List.length_pos.mpr ha
    simp only [List.length_append]
    omega
  unfold tagAfterKey
  rw [hsplit]
  simp only
  rw [if_pos hlen]
  exact ⟨_, _, rfl⟩

theorem tagMatchAt_cons_eq (a b c d : Char) (rest : List Char) :
    tagMatchAt (a :: b :: c :: d :: rest)
      = if a = '[' ∧ b = 'R' ∧ c = 'U' ∧ d = 'N' then tagAfterKey rest else none := rfl

theorem tagMatchAt_sound {l : List Char} {g : String} {n : Nat}
    (h : tagMatchAt l = some (g, n)) : SpecRunTag l g := by
  rcases l with _ | ⟨a, _ | ⟨b, _ | ⟨c, _ | ⟨d, rest⟩⟩⟩⟩
  · simp [tagMatchAt] at h
  · simp [tagMatchAt] at h
  · simp [tagMatchAt] at h
  · simp [tagMatchAt] at h
  · rw [tagMatchAt_cons_eq] at h
    by_cases hk : a = '[' ∧ b = 'R' ∧ c = 'U' ∧ d = 'N'
    · rw [if_pos hk] at h
      obtain ⟨rfl, rfl, rfl, rfl⟩ := hk
      exact ⟨rest, rfl, tagAfterKey_sound h⟩
    · rw [if_neg hk] at h
      cases h

theorem tagMatchAt_complete {l : List Char} {arg : String}
    (h : SpecRunTag l arg) : ∃ g n, tagMatchAt l = some (g, n) := by
  obtain ⟨rest, hl, hrest⟩ := h
  obtain ⟨g, n, hm⟩ := tagAfterKey_complete hrest
  refine ⟨g, n, ?_⟩
  rw [hl, tagMatchAt_cons_eq, if_pos ⟨rfl, rfl, rfl, rfl⟩]
  exact hm

theorem findTag_none_iff {l : List Char} :
    findTag l = none ↔ ∀ i, tagMatchAt (l.drop i) = none := by
  induction l with
  | nil =>
    simp only [findTag, List.drop_nil, true_iff]
    intro i
    rfl
  | cons c cs ih =>
    constructor
    · intro h i
      cases hm : tagMatchAt (c :: cs) with
      | some p =>
        obtain ⟨g, m⟩ := p
        simp only [findTag, hm] at h
        exact Option.noConfusion h
      | none =>
        simp only [findTag, hm] at h
        cases i with
        | zero => exact hm
        | succ j => rw [List.drop_succ_cons]; exact ih.mp h j
    · intro h
      have h0 := h 0
      simp only [List.drop_zero] at h0
      simp only [findTag, h0]
      exact ih.mpr (fun i => by have := h (i + 1); rwa [List.drop_succ_cons] at this)

theorem findTag_some_leftmost {l : List Char} {g : String} (h : findTag l = some g) :
    ∃ i n, tagMatchAt (l.drop i) = some (g, n) ∧ ∀ j, j < i → tagMatchAt (l.drop j) = none := by
  induction l with
  | nil => simp [findTag] at h
  | cons c cs ih =>
    cases hm : tagMatchAt (c :: cs) with
    | some p =>
      obtain ⟨g', m⟩ := p
      simp only [findTag, hm, Option.some.injEq] at h
      subst h
      exact ⟨0, m, hm, fun j hj => absurd hj (Nat.not_lt_zero j)⟩
    | none =>
      simp only [findTag, hm] at h
      obtain ⟨i, n, h1, h2⟩ := ih h
      refine ⟨i + 1, n, by rwa [List.drop_succ_cons], ?_⟩
      intro j hj
      cases j with
      | zero => exact hm
      | succ j' => rw [List.drop_succ_cons]; exact h2 j' (Nat.lt_of_succ_lt_succ hj)

theorem findTag_isSome_of_match {l : List Char} {i : Nat} {p : String × Nat}
    (h : tagMatchAt (l.drop i) = some p) : (findTag l).isSome = true := by
  induction l generalizing i with
  | nil =>
    rw [List.drop_nil] at h
    exact absurd h (by simp [tagMatchAt])
  | cons c cs ih =>
    cases i with
    | zero =>
      rw [List.drop_zero] at h
      simp [findTag, h]
    | succ j =>
      rw [List.drop_succ_cons] at h
      cases hm : tagMatchAt (c :: cs) with
      | some q => simp [findTag, hm]
      | none =>
        simp only [findTag, hm]
        exact ih h

/-- C4 (confirmed).  `extract_run_command` returns a directive exactly
when the buffer contains, at some position, the pattern the spec
describes (open bracket, case-sensitive keyword, optional colon,
optional whitespace, one or more non-close-bracket characters, close
bracket); when it does, the returned value is a trimmed argument of
the leftmost such occurrence, no earlier position carrying one; and on
the scenario text it returns `ls -la`. -/
theorem c4_find_complete (s : String) :
    ((extract_run_command s).isSome = true ↔ ∃ i arg, SpecRunTag (s.data.drop i) arg) ∧
    (∀ arg, extract_run_command s = some arg →
      ∃ i, SpecRunTag (s.data.drop i) arg ∧
        ∀ j, j < i → ¬∃ a, SpecRunTag (s.data.drop j) a) ∧
    extract_run_command "Sure, let me check. [RUN:ls -la]" = some "ls -la" := by
  refine ⟨⟨?_, ?_⟩, ?_, by decide⟩
  · intro h
    obtain ⟨g, hg⟩ := Option.isSome_iff_exists.mp h
    obtain ⟨i, n, h1, _⟩ := findTag_some_leftmost hg
    exact ⟨i, g, tagMatchAt_sound h1⟩
  · intro ⟨i, arg, hspec⟩
    obtain ⟨g, n, hm⟩ := tagMatchAt_complete hspec
    exact findTag_isSome_of_match hm
  · intro arg harg
    obtain ⟨i, n, h1, h2⟩ := findTag_some_leftmost harg
    refine ⟨i, tagMatchAt_sound h1, ?_⟩
    intro j hj ⟨a, ha⟩
    obtain ⟨g', n', hm'⟩ := tagMatchAt_complete ha
    rw [h2 j hj] at hm'
    cases hm'

/-- C4 witness: the theorem applied to a concrete buffer, its
hypothesis discharged by evaluation. -/
theorem c4_find_complete_witness :
    ∃ i, SpecRunTag ((String.data "say [RUN:pwd] now").drop i) "pwd" ∧
      ∀ j, j < i → ¬∃ a, SpecRunTag ((String.data "say [RUN:pwd] now").drop j) a :=
  (c4_find_complete "say [RUN:pwd] now").2.1 "pwd" (by decide)

theorem stripRunTags_of_no_match {l : List Char}
    (h : ∀ i, tagMatchAt (l.drop i) = none) : stripRunTags l = l := by
  induction l with
  | nil => simp [stripRunTags]
  | cons c cs ih =>
    have h0 := h 0
    rw [List.drop_zero] at h0
    rw [stripRunTags, h0]
    have : stripRunTags cs = cs :=
      ih (fun i => by have := h (i + 1); rwa [List.drop_succ_cons] at this)
    rw [this]

/-- C9 (confirmed).  On a string with no complete directive, the
markup-removing substitution is the identity. -/
theorem c9_strip_noop (s : String) (h : extract_run_command s = none) :
    sub_run_tags s = s := by
  have h' : ∀ i, tagMatchAt (s.data.drop i) = none := findTag_none_iff.mp h
  unfold sub_run_tags
  rw [stripRunTags_of_no_match h']

/-- C9 witness: the theorem applied to a concrete directive-free
string, its hypothesis discharged by evaluation. -/
theorem c9_strip_noop_witness :
    sub_run_tags "no directives here, [RUN without a close" =
      "no directives here, [RUN without a close" :=
  c9_strip_noop "no directives here, [RUN without a close" (by decide)

/-! Lemmas about the confirmation-and-execution gate. -/

/-- Every run of the gate either cancels with no process invocation,
or invokes the process on exactly one command, one that was presented
at a prompt and answered with an affirmative or empty reply. -/
theorem gate_characterization (proc : String → ProcResult) :
    ∀ script cmd,
      (execute_command proc script cmd = (none, 2) ∧ executedCmds script cmd = []) ∨
      (∃ c reply, executedCmds script cmd = [c] ∧
        execute_command proc script cmd = runAuthorized (proc c) ∧
        (c, reply) ∈ gateTrace script cmd ∧
        (reply = "y" ∨ reply = "yes" ∨ reply = "")) := by
  intro script
  induction script with
  | nil => intro cmd; left; exact ⟨rfl, rfl⟩
  | cons p rest ih =>
    obtain ⟨raw, ed⟩ := p
    intro cmd
    by_cases h1 : pyLower (pyStrip raw) = "y" ∨ pyLower (pyStrip raw) = "yes" ∨
        pyLower (pyStrip raw) = ""
    · right
      refine ⟨cmd, pyLower (pyStrip raw), ?_, ?_, ?_, h1⟩
      · simp [executedCmds, h1]
      · simp [execute_command, h1]
      · simp [gateTrace, h1]
    · by_cases h2 : pyLower (pyStrip raw) = "e" ∨ pyLower (pyStrip raw) = "edit"
      · by_cases h3 : ed = ""
        · left
          constructor
          · simp [execute_command, h1, h2, h3]
          · simp [executedCmds, h1, h2, h3]
        · have hexec : execute_command proc ((raw, ed) :: rest) cmd
              = execute_command proc rest ed := by
            simp [execute_command, h1, h2, h3]
          have hcmds : executedCmds ((raw, ed) :: rest) cmd = executedCmds rest ed := by
            simp [executedCmds, h1, h2, h3]
          have htrace : gateTrace ((raw, ed) :: rest) cmd
              = (cmd, pyLower (pyStrip raw)) :: gateTrace rest ed := by
            simp [gateTrace, h1, h2, h3]
          rcases ih ed with ⟨hc, he⟩ | ⟨c, reply, hc, he, hmem, hr⟩
          · left
            rw [hexec, hcmds]
            exact ⟨hc, he⟩
          · right
            refine ⟨c, reply, ?_, ?_, ?_, hr⟩
            · rw [hcmds]; exact hc
            · rw [hexec]; exact he
            · rw [htrace]; exact List.mem_cons_of_mem _ hmem
      · left
        constructor
        · simp [execute_command, h1, h2]
        · simp [executedCmds, h1, h2]

/-- The gate invokes at most one command per invocation. -/
theorem executedCmds_length_le_one (script : List (String × String)) (cmd : String) :
    (executedCmds script cmd).length ≤ 1 := by
  rcases gate_characterization (procOk "") script cmd with ⟨_, he⟩ | ⟨c, _, he, _⟩
  · rw [he]; simp
  · rw [he]; simp

/-- C5 (confirmed).  The execution gate classifies an authorized run
into data outcomes only: merged output with status `0` on exit code
zero, marker-prefixed output with status `1` on a non-zero exit, a
synthetic timeout message (carrying the fixed 30-unit timeout) with
status `1`, an explanatory synthetic message with status `1` on any
exception — never a propagated fault: the output is always present and
the status is always `0` or `1`; and an affirmative reply hands the
command to exactly this classifier. -/
theorem c5_execution_outcomes :
    (∀ out err code, runAuthorized (ProcResult.finished out err code) =
      if code = 0 then (some (out ++ err), 0)
      else (some ("[Command failed with exit code " ++ toString code ++ "]\n"
        ++ (out ++ err)), 1)) ∧
    runAuthorized ProcResult.timedOut =
      (some ("[Command timed out after " ++ toString command_timeout ++ " seconds]"), 1) ∧
    (∀ msg, runAuthorized (ProcResult.raised msg) =
      (some ("[Command failed: " ++ msg ++ "]"), 1)) ∧
    (∀ r, (runAuthorized r).1.isSome = true ∧
      ((runAuthorized r).2 = 0 ∨ (runAuthorized r).2 = 1)) ∧
    (∀ (proc : String → ProcResult) rest ed cmd,
      execute_command proc (("y", ed) :: rest) cmd = runAuthorized (proc cmd)) := by
  refine ⟨?_, by decide, fun msg => rfl, ?_, ?_⟩
  · intro out err code
    by_cases h : code = 0
    · simp [runAuthorized, h]
    · simp [runAuthorized, h]
  · intro r
    cases r with
    | finished out err code =>
      by_cases h : code = 0
      · simp [runAuthorized, h]
      · simp [runAuthorized, h]
    | timedOut => exact ⟨rfl, Or.inr rfl⟩
    | raised msg => exact ⟨rfl, Or.inr rfl⟩
  · intro proc rest ed cmd
    have hy : pyLower (pyStrip "y") = "y" ∨ pyLower (pyStrip "y") = "yes" ∨
        pyLower (pyStrip "y") = "" := by decide
    simp [execute_command, hy]

/-- C10 (confirmed).  No command text is executed without an
affirmative or empty reply entered for that exact text at a prompt,
and an edit never runs the replacement directly: the gate re-enters on
the edited text for a fresh decision. -/
theorem c10_confirmation_gate :
    (∀ (proc : String → ProcResult) script cmd o s,
      execute_command proc script cmd = (o, s) → s ≠ 2 →
      ∃ c reply, (c, reply) ∈ gateTrace script cmd ∧
        (reply = "y" ∨ reply = "yes" ∨ reply = "") ∧
        (o, s) = runAuthorized (proc c)) ∧
    (∀ (proc : String → ProcResult) raw ed rest cmd,
      (pyLower (pyStrip raw) = "e" ∨ pyLower (pyStrip raw) = "edit") → ed ≠ "" →
      execute_command proc ((raw, ed) :: rest) cmd = execute_command proc rest ed) := by
  constructor
  · intro proc script cmd o s hexec hs
    rcases gate_characterization proc script cmd with ⟨hc, _⟩ | ⟨c, reply, _, he, hmem, hr⟩
    · rw [hexec] at hc
      exact absurd (congrArg Prod.snd hc) hs
    · exact ⟨c, reply, hmem, hr, by rw [← hexec, he]⟩
  · intro proc raw ed rest cmd h2 hed
    have h1 : ¬(pyLower (pyStrip raw) = "y" ∨ pyLower (pyStrip raw) = "yes" ∨
        pyLower (pyStrip raw) = "") := by
      rcases h2 with h2 | h2 <;> rw [h2] <;> decide
    simp [execute_command, h1, h2, hed]

/-- C10 witness: a one-edit-then-confirm session, the theorem applied
at concrete inputs. -/
theorem c10_confirmation_gate_witness :
    ∃ c reply, (c, reply) ∈ gateTrace [("e", "ls -la"), ("Y ", "")] "ls" ∧
      (reply = "y" ∨ reply = "yes" ∨ reply = "") ∧
      ((some "done", 0) : Option String × Nat) = runAuthorized (procOk "done" c) :=
  c10_confirmation_gate.1 (procOk "done") [("e", "ls -la"), ("Y ", "")] "ls"
    (some "done") 0 (by decide) (by decide)

/-! Unfolding lemmas for the turn controller. -/

theorem make_top_fault {env : TurnEnv} (msgs : List Message)
    (h1 : env.s1 = StreamOutcome.fault) :
    make_api_call_top env msgs = ⟨msgs, false, false⟩ := by
  unfold make_api_call_top
  rw [h1]

theorem make_top_cancelled {env : TurnEnv} (msgs : List Message)
    (h1 : env.s1 = StreamOutcome.cancelled) :
    make_api_call_top env msgs = ⟨msgs, false, true⟩ := by
  unfold make_api_call_top
  rw [h1]

theorem make_top_empty {env : TurnEnv} (msgs : List Message)
    (h1 : env.s1 = StreamOutcome.empty) :
    make_api_call_top env msgs = ⟨msgs, false, false⟩ := by
  unfold make_api_call_top
  rw [h1]

theorem make_top_ok_nocmd {env : TurnEnv} {full : String} (msgs : List Message)
    (h1 : env.s1 = StreamOutcome.ok full)
    (hex : extract_run_command full = none) :
    make_api_call_top env msgs = ⟨msgs ++ [⟨Role.assistant, full⟩], true, false⟩ := by
  unfold make_api_call_top
  rw [h1]
  simp only
  rw [hex]

theorem make_top_ok_emptycmd {env : TurnEnv} {full : String} (msgs : List Message)
    (h1 : env.s1 = StreamOutcome.ok full)
    (hex : extract_run_command full = some "") :
    make_api_call_top env msgs = ⟨msgs ++ [⟨Role.assistant, full⟩], true, false⟩ := by
  unfold make_api_call_top
  rw [h1]
  simp only
  rw [hex]
  simp

theorem make_top_ok_cmd {env : TurnEnv} {full cmd : String} (msgs : List Message)
    (h1 : env.s1 = StreamOutcome.ok full)
    (hex : extract_run_command full = some cmd) (hcmd : cmd ≠ "") :
    make_api_call_top env msgs =
      if (execute_command env.proc env.decisions cmd).2 = 2 then
        (if clean_run_content full = "" then ⟨msgs, true, false⟩
         else ⟨msgs ++ [⟨Role.assistant, clean_run_content full⟩], true, false⟩)
      else
        make_api_call_cont
          (msgs ++ [⟨Role.assistant, full⟩,
            ⟨Role.user,
              if (execute_command env.proc env.decisions cmd).2 ≠ 0 then "Command failed."
              else "Command output:\n" ++ (execute_command env.proc env.decisions cmd).1.getD ""⟩])
          env.s2 := by
  unfold make_api_call_top
  rw [h1]
  simp only
  rw [hex]
  simp only
  rw [if_neg hcmd]

theorem make_cont_ok_cmd {full cmd : String} (msgs : List Message)
    (hex : extract_run_command full = some cmd) (hcmd : cmd ≠ "") :
    make_api_call_cont msgs (StreamOutcome.ok full) =
      ⟨msgs ++ [⟨Role.assistant, clean_run_content full⟩], true, false⟩ := by
  unfold make_api_call_cont
  simp only
  rw [hex]
  simp only
  rw [if_neg hcmd]

/-- C7 (confirmed).  When the user declines the command (status `2`
from the gate) the turn strips the directive markup, commits the
remainder as an `assistant` message exactly when text remains, appends
no follow-up `user` message, and returns successfully with no
continuation turn; and an empty replacement while editing yields the
same `(none, 2)` cancellation as an explicit decline. -/
theorem c7_decline_path :
    (∀ env msgs full cmd,
      env.s1 = StreamOutcome.ok full → extract_run_command full = some cmd → cmd ≠ "" →
      (execute_command env.proc env.decisions cmd).2 = 2 →
      make_api_call_top env msgs =
        if clean_run_content full = "" then ⟨msgs, true, false⟩
        else ⟨msgs ++ [⟨Role.assistant, clean_run_content full⟩], true, false⟩) ∧
    (∀ (proc : String → ProcResult) rest rest2 cmd ed2,
      execute_command proc (("e", "") :: rest) cmd = (none, 2) ∧
      execute_command proc (("n", ed2) :: rest2) cmd = (none, 2)) := by
  constructor
  · intro env msgs full cmd h1 hex hcmd hst
    rw [make_top_ok_cmd msgs h1 hex hcmd, if_pos hst]
  · intro proc rest rest2 cmd ed2
    constructor
    · have h1 : ¬(pyLower (pyStrip "e") = "y" ∨ pyLower (pyStrip "e") = "yes" ∨
          pyLower (pyStrip "e") = "") := by decide
      have h2 : pyLower (pyStrip "e") = "e" ∨ pyLower (pyStrip "e") = "edit" := by decide
      simp [execute_command, h1, h2]
    · have h1 : ¬(pyLower (pyStrip "n") = "y" ∨ pyLower (pyStrip "n") = "yes" ∨
          pyLower (pyStrip "n") = "") := by decide
      have h2 : ¬(pyLower (pyStrip "n") = "e" ∨ pyLower (pyStrip "n") = "edit") := by decide
      simp [execute_command, h1, h2]

/-- C7 witness: a declined directive with surrounding prose, the
theorem applied at concrete inputs. -/
theorem c7_decline_path_witness :
    make_api_call_top envDeclineTurn [] =
      if clean_run_content "I will list. [RUN:ls]" = "" then ⟨[], true, false⟩
      else ⟨[] ++ [⟨Role.assistant, clean_run_content "I will list. [RUN:ls]"⟩],
        true, false⟩ :=
  c7_decline_path.1 envDeclineTurn [] "I will list. [RUN:ls]" "ls" rfl (by decide)
    (by decide) (by decide)

/-! Lemmas about the incremental renderer. -/

theorem string_append_assoc (a b c : String) : a ++ b ++ c = a ++ (b ++ c) := by
  cases a with | mk la =>
  cases b with | mk lb =>
  cases c with | mk lc =>
  show String.mk (la ++ lb ++ lc) = String.mk (la ++ (lb ++ lc))
  rw [List.append_assoc]

theorem string_append_empty (a : String) : a ++ "" = a := by
  cases a with | mk la =>
  show String.mk (la ++ []) = String.mk la
  rw [List.append_nil]

/-- Snapshots pushed by the streaming loop never contain a complete
directive: a chunk completing one stops the loop before any display. -/
theorem render_loop_no_tag (rest : List (String × Bool)) :
    ∀ buf shown, (∀ s ∈ shown, hasTag s = false) →
      ∀ s ∈ (render_loop rest buf shown).displayed, hasTag s = false := by
  induction rest with
  | nil => intro buf shown h s hs; exact h s hs
  | cons p rest ih =>
    obtain ⟨c, r⟩ := p
    intro buf shown h s hs
    simp only [render_loop] at hs
    by_cases ht : hasTag (buf ++ c)
    · rw [if_pos ht] at hs
      exact h s hs
    · rw [if_neg ht] at hs
      refine ih (buf ++ c) _ ?_ s hs
      intro x hx
      cases r with
      | true =>
        simp only [if_pos rfl] at hx
        rcases List.mem_append.mp hx with hx | hx
        · exact h x hx
        · rcases List.mem_singleton.mp hx with rfl
          exact eq_false_of_ne_true ht
      | false =>
        simp only [Bool.false_eq_true, if_neg] at hx
        exact h x hx

/-- Every snapshot pushed by the streaming loop is a prefix of the
final buffer: disclosure is forward-only. -/
theorem render_loop_shown_pre (rest : List (String × Bool)) :
    ∀ buf shown, (∀ s ∈ shown, ∃ t, buf = s ++ t) →
      ∀ s ∈ (render_loop rest buf shown).displayed,
        ∃ t, (render_loop rest buf shown).buffer = s ++ t := by
  induction rest with
  | nil => intro buf shown h s hs; exact h s hs
  | cons p rest ih =>
    obtain ⟨c, r⟩ := p
    intro buf shown h s hs
    simp only [render_loop] at hs ⊢
    by_cases ht : hasTag (buf ++ c)
    · rw [if_pos ht] at hs ⊢
      obtain ⟨t, hbuf⟩ := h s hs
      exact ⟨t ++ c, by rw [hbuf, string_append_assoc]⟩
    · rw [if_neg ht] at hs ⊢
      refine ih (buf ++ c) _ ?_ s hs
      intro x hx
      cases r with
      | true =>
        simp only [if_pos rfl] at hx
        rcases List.mem_append.mp hx with hx | hx
        · obtain ⟨t, hbuf⟩ := h x hx
          exact ⟨t ++ c, by rw [hbuf, string_append_assoc]⟩
        · rcases List.mem_singleton.mp hx with rfl
          exact ⟨"", (string_append_empty _).symm⟩
      | false =>
        simp only [Bool.false_eq_true, if_neg] at hx
        obtain ⟨t, hbuf⟩ := h x hx
        exact ⟨t ++ c, by rw [hbuf, string_append_assoc]⟩

/-- C3 (corrected).  The renderer does not withhold possible directive
prefixes; what holds is: every snapshot handed to the display is free
of any complete directive (so display halts before the chunk that
completes a directive, and the directive's closing bracket is never
shown), and every snapshot is a prefix of the final buffer. -/
theorem c3_renderer_amended (first : String) (rest : List (String × Bool)) :
    ∀ s ∈ (render_stream first rest).displayed,
      hasTag s = false ∧ ∃ t, (render_stream first rest).buffer = s ++ t := by
  intro s hs
  unfold render_stream at hs ⊢
  by_cases h0 : hasTag first
  · rw [if_pos h0] at hs
    cases hs
  · rw [if_neg h0] at hs ⊢
    have hshown0 : ∀ x ∈ (if pyStrip first ≠ "" then [first] else []), hasTag x = false := by
      intro x hx
      by_cases hb : pyStrip first ≠ ""
      · rw [if_pos hb] at hx
        rcases List.mem_singleton.mp hx with rfl
        exact eq_false_of_ne_true h0
      · rw [if_neg hb] at hx
        cases hx
    have hpre0 : ∀ x ∈ (if pyStrip first ≠ "" then [first] else []), ∃ t, first = x ++ t := by
      intro x hx
      by_cases hb : pyStrip first ≠ ""
      · rw [if_pos hb] at hx
        rcases List.mem_singleton.mp hx with rfl
        exact ⟨"", (string_append_empty _).symm⟩
      · rw [if_neg hb] at hx
        cases hx
    set T := render_loop rest first (if pyStrip first ≠ "" then [first] else []) with hT
    have hTnot := render_loop_no_tag rest first _ hshown0
    have hTpre := render_loop_shown_pre rest first _ hpre0
    rw [← hT] at hTnot hTpre
    by_cases hdet : T.detected
    · rw [if_pos hdet] at hs ⊢
      exact ⟨hTnot s hs, hTpre s hs⟩
    · rw [if_neg hdet] at hs ⊢
      by_cases htag : hasTag T.buffer
      · rw [if_pos htag] at hs ⊢
        exact ⟨hTnot s hs, hTpre s hs⟩
      · rw [if_neg htag] at hs ⊢
        by_cases hne : pyStrip T.buffer ≠ ""
        · rw [if_pos hne] at hs ⊢
          rcases List.mem_append.mp hs with hs | hs
          · exact ⟨hTnot s hs, hTpre s hs⟩
          · rcases List.mem_singleton.mp hs with rfl
            exact ⟨eq_false_of_ne_true htag, "", (string_append_empty _).symm⟩
        · rw [if_neg hne] at hs ⊢
          exact ⟨hTnot s hs, hTpre s hs⟩

/-- C3 witness: the amended theorem applied to the spec's streaming
scenario and the first displayed snapshot. -/
theorem c3_renderer_amended_witness :
    hasTag "Sure, " = false ∧
      ∃ t, (render_stream "Sure, "
        [("let me check. ", true), ("[RUN:ls -", true), ("la]", true)]).buffer
          = "Sure, " ++ t :=
  c3_renderer_amended "Sure, "
    [("let me check. ", true), ("[RUN:ls -", true), ("la]", true)] "Sure, " (by decide)

/-- C3 counterexample: in the spec's own scenario, with the refresh
gate open at the third chunk, the renderer hands the display a
snapshot that ends in the partial directive text `[RUN:ls -` — so
characters at and beyond the possible-prefix start are disclosed, and
more is shown after chunk 2, contradicting the claim. -/
theorem c3_renderer_counterexample :
    (render_stream "Sure, "
        [("let me check. ", true), ("[RUN:ls -", true), ("la]", true)]).displayed
      = ["Sure, ", "Sure, let me check. ", "Sure, let me check. [RUN:ls -"] ∧
    "Sure, let me check. [RUN:ls -" ≠ "Sure, let me check. " ∧
    extract_run_command
        ("Sure, " ++ ("let me check. " ++ ("[RUN:ls -" ++ ("la]" ++ ""))))
      = some "ls -la" := by
  refine ⟨by decide, by decide, by decide⟩

/-! History helpers and the turn-level claims. -/

theorem getLast?_append_one {α : Type} (l : List α) (m : α) :
    (l ++ [m]).getLast? = some m :=
  List.getLast?_concat l

theorem dropLast_append_one {α : Type} (l : List α) (m : α) :
    (l ++ [m]).dropLast = l :=
  List.dropLast_concat

theorem endsWithUser_append_assistant (l : List Message) (x : String) :
    endsWithUser (l ++ [⟨Role.assistant, x⟩]) = false := by
  unfold endsWithUser
  rw [getLast?_append_one]

theorem endsWithUser_append_user (l : List Message) (x : String) :
    endsWithUser (l ++ [⟨Role.user, x⟩]) = true := by
  unfold endsWithUser
  rw [getLast?_append_one]

/-- The continuation turn commits exactly one `assistant` message on
any completed stream, whatever the content. -/
theorem make_cont_ok_messages (msgs : List Message) (full : String) :
    ∃ content, make_api_call_cont msgs (StreamOutcome.ok full) =
      ⟨msgs ++ [⟨Role.assistant, content⟩], true, false⟩ := by
  unfold make_api_call_cont
  exact ⟨_, rfl⟩

theorem turnExecutedCmds_ok_cmd {env : TurnEnv} {full cmd : String}
    (h1 : env.s1 = StreamOutcome.ok full)
    (hex : extract_run_command full = some cmd) (hcmd : cmd ≠ "") :
    turnExecutedCmds env = executedCmds env.decisions cmd := by
  unfold turnExecutedCmds
  rw [h1]
  simp only
  rw [hex]
  simp only
  rw [if_neg hcmd]

/-- C2 (confirmed).  At most one command is executed per
user-initiated turn: the per-turn executed-command list has length at
most one, execution happens exactly once when a truthy directive of
the top-level turn passes the gate, and a continuation turn never
executes a found directive but commits the content with its markup
stripped. -/
theorem c2_single_execution :
    (∀ env, (turnExecutedCmds env).length ≤ 1) ∧
    (∀ env full cmd,
      env.s1 = StreamOutcome.ok full → extract_run_command full = some cmd → cmd ≠ "" →
      (execute_command env.proc env.decisions cmd).2 ≠ 2 →
      ∃ c, turnExecutedCmds env = [c] ∧
        execute_command env.proc env.decisions cmd = runAuthorized (env.proc c)) ∧
    (∀ msgs full cmd, extract_run_command full = some cmd → cmd ≠ "" →
      (make_api_call_cont msgs (StreamOutcome.ok full)).messages =
        msgs ++ [⟨Role.assistant, clean_run_content full⟩]) := by
  refine ⟨?_, ?_, ?_⟩
  · intro env
    unfold turnExecutedCmds
    cases hs : env.s1 with
    | fault => simp
    | cancelled => simp
    | empty => simp
    | ok full =>
      simp only
      cases hex : extract_run_command full with
      | none => simp
      | some cmd =>
        simp only
        by_cases hcmd : cmd = ""
        · rw [if_pos hcmd]; simp
        · rw [if_neg hcmd]
          exact executedCmds_length_le_one env.decisions cmd
  · intro env full cmd h1 hex hcmd hst
    rw [turnExecutedCmds_ok_cmd h1 hex hcmd]
    rcases gate_characterization env.proc env.decisions cmd with ⟨he, _⟩ | ⟨c, _, hc, he, _, _⟩
    · rw [he] at hst
      exact absurd rfl hst
    · exact ⟨c, hc, he⟩
  · intro msgs full cmd hex hcmd
    rw [make_cont_ok_cmd msgs hex hcmd]

/-- C2 witness: the theorem applied to the concrete executed turn and
a concrete continuation content. -/
theorem c2_single_execution_witness :
    (turnExecutedCmds envEchoTurn).length ≤ 1 ∧
    (make_api_call_cont [] (StreamOutcome.ok "a [RUN:ls] b")).messages =
      [] ++ [⟨Role.assistant, clean_run_content "a [RUN:ls] b"⟩] :=
  ⟨c2_single_execution.1 envEchoTurn,
   c2_single_execution.2.2 [] "a [RUN:ls] b" "ls" (by decide) (by decide)⟩

/-- C6 counterexample: a successful command with output `ok` gets the
follow-up `user` message `Command output:` plus a newline plus the
output — not the literal command-output text the claim states. -/
theorem c6_follow_up_counterexample :
    (make_api_call_top envEchoTurn []).messages =
      [⟨Role.assistant, "Check. [RUN:echo hi]"⟩,
       ⟨Role.user, "Command output:\nok"⟩,
       ⟨Role.assistant, "Done."⟩] ∧
    "Command output:\nok" ≠ "ok" :=
  ⟨by decide, by decide⟩

/-- C6 (corrected).  For an executed directive of an original turn,
the unmodified full content (markup included) is appended as the
`assistant` message, then a synthetic `user` message — the fixed
literal `Command failed.` on any non-zero status regardless of the
command's output, and on success the command output framed by the
`Command output:` prefix and a newline — and the continuation turn is
started on the extended history. -/
theorem c6_follow_up_amended :
    ∀ env msgs full cmd,
      env.s1 = StreamOutcome.ok full → extract_run_command full = some cmd → cmd ≠ "" →
      (execute_command env.proc env.decisions cmd).2 ≠ 2 →
      make_api_call_top env msgs =
        make_api_call_cont
          (msgs ++ [⟨Role.assistant, full⟩,
            ⟨Role.user,
              if (execute_command env.proc env.decisions cmd).2 ≠ 0 then "Command failed."
              else "Command output:\n"
                ++ (execute_command env.proc env.decisions cmd).1.getD ""⟩])
          env.s2 := by
  intro env msgs full cmd h1 hex hcmd hst
  rw [make_top_ok_cmd msgs h1 hex hcmd, if_neg hst]

/-- C6 witness: the amended theorem applied to the concrete executed
turn. -/
theorem c6_follow_up_amended_witness :
    make_api_call_top envEchoTurn [] =
      make_api_call_cont
        ([] ++ [⟨Role.assistant, "Check. [RUN:echo hi]"⟩,
          ⟨Role.user,
            if (execute_command envEchoTurn.proc envEchoTurn.decisions "echo hi").2 ≠ 0
            then "Command failed."
            else "Command output:\n"
              ++ (execute_command envEchoTurn.proc envEchoTurn.decisions "echo hi").1.getD ""⟩])
        envEchoTurn.s2 :=
  c6_follow_up_amended envEchoTurn [] "Check. [RUN:echo hi]" "echo hi" rfl (by decide)
    (by decide) (by decide)

/-- C8 counterexample: after a transport fault the cancellation flag
is not set, so the just-added user message is not retracted and the
history is not left as it was before the turn. -/
theorem c8_transport_fault_counterexample :
    main_iteration envFaultTurn "what is up" [⟨Role.system, "sys"⟩] =
      [⟨Role.system, "sys"⟩, ⟨Role.user, "what is up"⟩] ∧
    [⟨Role.system, "sys"⟩, ⟨Role.user, "what is up"⟩] ≠
      ([⟨Role.system, "sys"⟩] : List Message) :=
  ⟨by decide, by decide⟩

/-- C8 (corrected).  A transport fault aborts the turn with no
appends of its own, but the user message added at the start of the
turn is retracted only when the cancellation flag is set: after a pure
transport fault the history is the pre-turn history plus that user
message, while a cancelled turn is rolled back completely. -/
theorem c8_transport_fault_amended :
    ∀ (env env2 : TurnEnv) u msgs,
      (env.s1 = StreamOutcome.fault →
        make_api_call_top env (msgs ++ [⟨Role.user, u⟩]) =
          ⟨msgs ++ [⟨Role.user, u⟩], false, false⟩ ∧
        main_iteration env u msgs = msgs ++ [⟨Role.user, u⟩]) ∧
      (env2.s1 = StreamOutcome.cancelled → main_iteration env2 u msgs = msgs) := by
  intro env env2 u msgs
  constructor
  · intro h1
    refine ⟨make_top_fault _ h1, ?_⟩
    unfold main_iteration
    rw [make_top_fault _ h1]
    simp
  · intro h2
    unfold main_iteration
    rw [make_top_cancelled _ h2]
    simp only [endsWithUser_append_user]
    simp [dropLast_append_one]

/-- C8 witness: the amended theorem applied to concrete faulting and
cancelled turns. -/
theorem c8_transport_fault_amended_witness :
    (make_api_call_top envFaultTurn ([] ++ [⟨Role.user, "hello there"⟩]) =
      ⟨[] ++ [⟨Role.user, "hello there"⟩], false, false⟩ ∧
     main_iteration envFaultTurn "hello there" [] = [] ++ [⟨Role.user, "hello there"⟩]) ∧
    main_iteration envCancelTurn "hello there" [] = [] :=
  ⟨(c8_transport_fault_amended envFaultTurn envCancelTurn "hello there" []).1 rfl,
   (c8_transport_fault_amended envFaultTurn envCancelTurn "hello there" []).2 rfl⟩

/-- The last entry of an extended history is decided by the nonempty
extension alone. -/
theorem endsWithUser_append (l r : List Message) (h : r ≠ []) :
    endsWithUser (l ++ r) = endsWithUser r := by
  unfold endsWithUser
  rw [List.getLast?_append_of_ne_nil l h]

/-- One safe turn preserves the no-dangling-user-entry invariant. -/
theorem main_iteration_preserves {env : TurnEnv} (u : String) (msgs : List Message)
    (hsafe : SafeTurn env) (h : endsWithUser msgs = false) :
    endsWithUser (main_iteration env u msgs) = false := by
  obtain ⟨hs1, hrest⟩ := hsafe
  cases hs : env.s1 with
  | fault => rw [hs] at hs1; exact absurd hs1 (by decide)
  | empty => rw [hs] at hs1; exact absurd hs1 (by decide)
  | cancelled =>
    unfold main_iteration
    rw [make_top_cancelled _ hs]
    simp only [endsWithUser_append_user]
    simpa [dropLast_append_one] using h
  | ok full =>
    cases hex : extract_run_command full with
    | none =>
      unfold main_iteration
      rw [make_top_ok_nocmd _ hs hex]
      simp [endsWithUser_append, endsWithUser, List.getLast?_cons_cons,
        List.getLast?_singleton]
    | some cmd =>
      by_cases hcmd : cmd = ""
      · subst hcmd
        unfold main_iteration
        rw [make_top_ok_emptycmd _ hs hex]
        simp [endsWithUser_append, endsWithUser, List.getLast?_cons_cons,
          List.getLast?_singleton]
      · obtain ⟨hdecl, hexec⟩ := hrest full cmd hs hex hcmd
        by_cases hst : (execute_command env.proc env.decisions cmd).2 = 2
        · have hclean := hdecl hst
          unfold main_iteration
          rw [make_top_ok_cmd _ hs hex hcmd, if_pos hst, if_neg hclean]
          simp [endsWithUser_append, endsWithUser, List.getLast?_cons_cons,
            List.getLast?_singleton]
        · have hs2 := hexec hst
          unfold main_iteration
          rw [make_top_ok_cmd _ hs hex hcmd, if_neg hst]
          cases hs2c : env.s2 with
          | fault => rw [hs2c] at hs2; exact absurd hs2 (by decide)
          | empty => rw [hs2c] at hs2; exact absurd hs2 (by decide)
          | cancelled =>
            simp only [make_api_call_cont]
            simp [endsWithUser_append, endsWithUser, List.getLast?_cons_cons,
              List.getLast?_singleton]
          | ok full2 =>
            obtain ⟨content, hcont⟩ := make_cont_ok_messages
              ((msgs ++ [⟨Role.user, u⟩]) ++
                [⟨Role.assistant, full⟩,
                 ⟨Role.user,
                   if (execute_command env.proc env.decisions cmd).2 ≠ 0 then "Command failed."
                   else "Command output:\n"
                     ++ (execute_command env.proc env.decisions cmd).1.getD ""⟩]) full2
            rw [hcont]
            simp [endsWithUser_append, endsWithUser, List.getLast?_cons_cons,
              List.getLast?_singleton]

/-- C1 counterexample: a single turn that fails with a transport
fault leaves the conversation ending in an unanswered `user` entry at
the end of the top-level loop iteration, because the cancellation
flag is clear and the retraction is skipped. -/
theorem c1_history_counterexample :
    run_session [("hi", envFaultTurn)] [⟨Role.system, "sys"⟩] =
      [⟨Role.system, "sys"⟩, ⟨Role.user, "hi"⟩] ∧
    endsWithUser (run_session [("hi", envFaultTurn)] [⟨Role.system, "sys"⟩]) = true :=
  ⟨by decide, by decide⟩

/-- C1 (corrected).  The history invariant holds for every sequence of
safe turns: turns whose streams neither fault nor come back empty,
whose declined directives leave non-blank prose, and whose
continuations after an executed command neither fault nor come back
empty.  Under those conditions — which exclude the counterexample's
non-cancelled failures — no top-level loop iteration leaves the
history ending in an unanswered `user` entry. -/
theorem c1_history_amended :
    ∀ turns msgs, (∀ t ∈ turns, SafeTurn t.2) → endsWithUser msgs = false →
      endsWithUser (run_session turns msgs) = false := by
  intro turns
  induction turns with
  | nil => intro msgs _ h; exact h
  | cons t rest ih =>
    intro msgs hall h
    unfold run_session
    rw [List.foldl_cons]
    exact ih (main_iteration t.2 t.1 msgs)
      (fun x hx => hall x (List.mem_cons_of_mem _ hx))
      (main_iteration_preserves t.1 msgs (hall t (List.mem_cons_self _ _)) h)

/-- C1 witness: the amended theorem applied to a session of one plain
completed turn over the initial system-message history. -/
theorem c1_history_amended_witness :
    endsWithUser (run_session [("hi", envPlainTurn)] [⟨Role.system, "sys"⟩]) = false :=
  c1_history_amended [("hi", envPlainTurn)] [⟨Role.system, "sys"⟩]
    (by
      intro t ht
      rcases List.mem_singleton.mp ht with rfl
      refine ⟨by decide, ?_⟩
      intro full cmd h1 hex hcmd
      have h1' : StreamOutcome.ok "hello" = StreamOutcome.ok full := h1
      injection h1' with hfull
      subst hfull
      rw [show extract_run_command "hello" = none by decide] at hex
      cases hex)
    (by decide)

end LlmCli
